import Mathlib

/-!
Verification development for the opencode-skills plugin (src/index.ts).

JavaScript strings are embedded as `List Char` (with `String` facades built
by `String.mk`).  The string primitives the source relies on —
`String.prototype.split`, `Array.prototype.join`, `String.prototype.replaceAll`
(and the global-regex hyphen replace, which coincides with
`replaceAll "-" "_"`) — are given structural, executable models below.
Node's `path` module (POSIX flavour) is external to the repository; `dirname`,
`basename` and `relative` are modelled for normalized slash-separated paths,
which is the shape of every path the plugin passes to them.
-/

/-- JS `s.split(sep)` for a single-character separator. -/
def jsSplit (sep : Char) : List Char → List (List Char)
  | [] => [[]]
  | c :: cs =>
    if c = sep then [] :: jsSplit sep cs
    else
      match jsSplit sep cs with
      | [] => [[c]]
      | s :: ss => (c :: s) :: ss

/-- JS `parts.join(sep)` (Array.prototype.join). -/
def jsJoin (sep : List Char) : List (List Char) → List Char
  | [] => []
  | [s] => s
  | s :: rest => s ++ sep ++ jsJoin sep rest

/-- Fueled worker for `replaceAll`; one unit of fuel per character position,
so fuel `s.length` always suffices. -/
def replaceAllGo (pat rep : List Char) : Nat → List Char → List Char
  | 0, s => s
  | _ + 1, [] => []
  | n + 1, c :: cs =>
    if !pat.isEmpty && pat.isPrefixOf (c :: cs) then
      rep ++ replaceAllGo pat rep n (List.drop pat.length (c :: cs))
    else
      c :: replaceAllGo pat rep n cs

/-- JS `s.replaceAll(pat, rep)` for a non-empty literal pattern and a
replacement free of `$`: scan left to right, replace each occurrence,
continue past it (the replacement text is never rescanned).  ECMAScript
GetSubstitution inserts a `$`-free replacement literally, so this is the
exact model for the hyphen-to-underscore replace (replacement `_`);
`replaceAllJS` below is the full model with `$`-substitution, and
`replaceAllJS_eq_replaceAll` proves the two agree on `$`-free
replacements. -/
def replaceAll (pat rep s : List Char) : List Char :=
  replaceAllGo pat rep s.length s

/-- ECMAScript GetSubstitution for a string pattern (no capture groups):
`$$` yields `$`, `$&` the matched substring, `` $` `` (dollar backquote) the
part of the original string before the match, `$'` the part after it; any
other `$` is literal. -/
def getSubstitution (matched before after : List Char) : List Char → List Char
  | [] => []
  | [c] => [c]
  | c :: d :: rest =>
    if c = '$' then
      if d = '$' then '$' :: getSubstitution matched before after rest
      else if d = '&' then matched ++ getSubstitution matched before after rest
      else if d = '\x60' then before ++ getSubstitution matched before after rest
      else if d = '\'' then after ++ getSubstitution matched before after rest
      else c :: getSubstitution matched before after (d :: rest)
    else c :: getSubstitution matched before after (d :: rest)

/-- Fueled worker for `replaceAllJS`, tracking the scan position in the
original string so GetSubstitution can see the text before and after each
match. -/
def replaceAllJSGo (pat rep orig : List Char) : Nat → Nat → List Char
  | 0, pos => List.drop pos orig
  | n + 1, pos =>
    match List.drop pos orig with
    | [] => []
    | c :: cs =>
      if !pat.isEmpty && pat.isPrefixOf (c :: cs) then
        getSubstitution pat (List.take pos orig) (List.drop (pos + pat.length) orig) rep
          ++ replaceAllJSGo pat rep orig n (pos + pat.length)
      else
        c :: replaceAllJSGo pat rep orig n (pos + 1)

/-- JS `s.replaceAll(pat, rep)` in full: each occurrence is replaced by the
GetSubstitution expansion of the replacement at that match position. -/
def replaceAllJS (pat rep s : List Char) : List Char :=
  replaceAllJSGo pat rep s s.length 0

/-- Does `pat` occur as a contiguous substring? -/
def containsSub (pat : List Char) : List Char → Bool
  | [] => pat.isEmpty
  | c :: cs => pat.isPrefixOf (c :: cs) || containsSub pat cs

/-- Length of the common prefix of two segment lists (as in Node's
`path.relative`). -/
def commonPrefixLen : List (List Char) → List (List Char) → Nat
  | a :: as, b :: bs => if a = b then 1 + commonPrefixLen as bs else 0
  | _, _ => 0

/-- Model of POSIX `path.relative(base, target)` for normalized absolute
paths: split both on `/`, drop empty segments (the leading slash), walk up
for each non-shared base segment, then down the remaining target segments. -/
def posixRelative (base target : List Char) : List Char :=
  let bs := (jsSplit '/' base).filter (fun s => s ≠ [])
  let ts := (jsSplit '/' target).filter (fun s => s ≠ [])
  let k := commonPrefixLen bs ts
  jsJoin ['/'] (List.replicate (bs.length - k) ['.', '.'] ++ ts.drop k)

/-- Model of POSIX `path.dirname` for normalized paths without trailing
slashes. -/
def posixDirname (p : List Char) : List Char :=
  let segs := jsSplit '/' p
  if segs.length ≤ 1 then ['.']
  else
    let d := jsJoin ['/'] segs.dropLast
    if d = [] then ['/'] else d

/-- Model of POSIX `path.basename` for normalized paths without trailing
slashes. -/
def posixBasename (p : List Char) : List Char :=
  ((jsSplit '/' p).getLast? ).getD []

/-- `path.dirname` on the `String` facade. -/
def dirname (p : String) : String := String.mk (posixDirname p.toList)

/-- `path.basename` on the `String` facade. -/
def basename (p : String) : String := String.mk (posixBasename p.toList)

/-- src/index.ts `generateToolName`: relative path from the root, drop the
filename, split on the separator, discard `.` segments, join with `_`,
replace every `-` with `_` (global regex replace), prepend `skills_`. -/
def generateToolName (skillPath : String) (baseDir : String) : String :=
  let rel := posixRelative baseDir.toList skillPath.toList
  let dirPath := posixDirname rel
  let components := (jsSplit '/' dirPath).filter (fun c => c ≠ ['.'])
  String.mk ("skills_".toList ++ replaceAll ['-'] ['_'] (jsJoin ['_'] components))

/-- Well-formed path segment: non-empty and free of the separator. -/
def goodSeg (s : List Char) : Prop := s ≠ [] ∧ '/' ∉ s

instance goodSegDecidable (s : List Char) : Decidable (goodSeg s) :=
  inferInstanceAs (Decidable (s ≠ [] ∧ '/' ∉ s))

/-- The absolute path whose directory/file chain is the given segment list. -/
def absS (segs : List (List Char)) : String :=
  String.mk ('/' :: jsJoin ['/'] segs)

/-- The Identifier Deriver as §4.2 of the spec words it, as a function of the
directory chain alone: discard current-directory segments, replace every
hyphen inside each segment by an underscore, join the segments with
underscores, prepend the fixed prefix. -/
def specIdentifier (chain : List (List Char)) : String :=
  String.mk ("skills_".toList
    ++ jsJoin ['_'] ((chain.filter (fun s => s ≠ ['.'])).map (replaceAll ['-'] ['_'])))

/-- Untyped YAML value as handed over by the front-matter splitter
(gray-matter, an external collaborator); objects are association lists with
distinct keys. -/
inductive JsonVal where
  | str (s : String)
  | num (n : Int)
  | boolean (b : Bool)
  | null
  | arr (xs : List JsonVal)
  | obj (kvs : List (String × JsonVal))

/-- Zod `z.string()`. -/
def zString : JsonVal → Option String
  | JsonVal.str s => some s
  | _ => none

/-- One character of the regex class `[a-z0-9-]`. -/
def isNameChar (c : Char) : Bool :=
  ('a' ≤ c && c ≤ 'z') || ('0' ≤ c && c ≤ '9') || c == '-'

/-- Element loop of Zod `z.array(z.string())`. -/
def allStrings : List JsonVal → Option (List String)
  | [] => some []
  | v :: vs =>
    match zString v, allStrings vs with
    | some s, some ss => some (s :: ss)
    | _, _ => none

/-- Value loop of Zod `z.record(z.string())`. -/
def allStringValues : List (String × JsonVal) → Option (List (String × String))
  | [] => some []
  | (k, v) :: kvs =>
    match zString v, allStringValues kvs with
    | some s, some ss => some ((k, s) :: ss)
    | _, _ => none

/-- The normalized header record produced by a successful schema parse. -/
structure SkillFrontmatter where
  name : String
  description : String
  license : Option String
  allowedTools : Option (List String)
  metadata : Option (List (String × String))
deriving DecidableEq

/-- `name: z.string().regex(^[a-z0-9-]+$).min(1)`. -/
def parseNameField (data : List (String × JsonVal)) : Option String :=
  match data.lookup "name" with
  | some (JsonVal.str s) =>
    if !s.isEmpty && s.toList.all isNameChar then some s else none
  | _ => none

/-- `description: z.string().min(20)`. -/
def parseDescriptionField (data : List (String × JsonVal)) : Option String :=
  match data.lookup "description" with
  | some (JsonVal.str s) => if 20 ≤ s.length then some s else none
  | _ => none

/-- `license: z.string().optional()`. -/
def parseLicenseField (data : List (String × JsonVal)) : Option (Option String) :=
  match data.lookup "license" with
  | none => some none
  | some (JsonVal.str s) => some (some s)
  | some _ => none

/-- `allowed-tools: z.array(z.string()).optional()`. -/
def parseAllowedToolsField (data : List (String × JsonVal)) :
    Option (Option (List String)) :=
  match data.lookup "allowed-tools" with
  | none => some none
  | some (JsonVal.arr xs) => (allStrings xs).map some
  | some _ => none

/-- `metadata: z.record(z.string()).optional()`. -/
def parseMetadataField (data : List (String × JsonVal)) :
    Option (Option (List (String × String))) :=
  match data.lookup "metadata" with
  | none => some none
  | some (JsonVal.obj kvs) => (allStringValues kvs).map some
  | some _ => none

/-- src/index.ts `SkillFrontmatterSchema.parse`: Zod runs every field schema
of the object; parsing succeeds iff all five field schemas succeed (failure —
Zod's aggregated `ZodError` — is modelled as `none`). -/
def SkillFrontmatterSchema_parse (data : List (String × JsonVal)) :
    Option SkillFrontmatter :=
  match parseNameField data, parseDescriptionField data, parseLicenseField data,
      parseAllowedToolsField data, parseMetadataField data with
  | some n, some d, some l, some t, some m =>
    some { name := n, description := d, license := l, allowedTools := t, metadata := m }
  | _, _, _, _, _ => none

/-- Claim wording: a `name` value is present, is a string, is non-empty and
matches `^[a-z0-9-]+$`. -/
def nameAccepted (data : List (String × JsonVal)) : Prop :=
  ∃ s : String, data.lookup "name" = some (JsonVal.str s)
    ∧ s ≠ "" ∧ ∀ c ∈ s.toList, isNameChar c = true

/-- Claim wording: a `description` string of length at least 20 is present. -/
def descriptionAccepted (data : List (String × JsonVal)) : Prop :=
  ∃ s : String, data.lookup "description" = some (JsonVal.str s) ∧ 20 ≤ s.length

/-- Claim wording: `allowed-tools` is present but is not a sequence of
strings. -/
def allowedToolsBad (data : List (String × JsonVal)) : Prop :=
  ∃ v, data.lookup "allowed-tools" = some v
    ∧ ∀ ss : List String, v ≠ JsonVal.arr (ss.map JsonVal.str)

/-- Claim wording: `metadata` is present but is not a flat string-to-string
mapping. -/
def metadataBad (data : List (String × JsonVal)) : Prop :=
  ∃ v, data.lookup "metadata" = some v
    ∧ ∀ kvs : List (String × String),
        v ≠ JsonVal.obj (kvs.map (fun p => (p.1, JsonVal.str p.2)))

/-- `license` is present but is not a string (the condition the claim
omits). -/
def licenseBad (data : List (String × JsonVal)) : Prop :=
  ∃ v, data.lookup "license" = some v ∧ ∀ s : String, v ≠ JsonVal.str s

/-- JS `String.prototype.trim`: strip leading and trailing whitespace. -/
def jsTrim (s : List Char) : List Char :=
  (((s.dropWhile Char.isWhitespace).reverse).dropWhile Char.isWhitespace).reverse

/-- `trim` on the `String` facade. -/
def trim (s : String) : String := String.mk (jsTrim s.toList)

/-- In-memory bundle (interface `Skill` in src/index.ts). -/
structure Skill where
  name : String
  fullPath : String
  toolName : String
  description : String
  allowedTools : Option (List String)
  metadata : Option (List (String × String))
  license : Option String
  content : String
  path : String
deriving DecidableEq

/-- Console diagnostics of src/index.ts, modelled structurally: each
constructor carries exactly the values interpolated into the corresponding
`console.error` / `console.warn` message. -/
inductive LogEvent where
  | invalidFrontmatter (path : String)
  | nameMismatch (path frontmatterName directoryName : String)
  | readFailure (path : String)
  | duplicateToolNames (names : List String)
deriving DecidableEq

/-- src/index.ts `parseSkill`, given the gray-matter split `(data, markdown)`
of the file's text (reading and splitting are external; their failure takes
the catch branch, see `parseSkillFile`).  Returns the parsed skill or `none`,
paired with the diagnostics logged. -/
def parseSkill (data : List (String × JsonVal)) (markdown : String)
    (skillPath baseDir : String) : Option Skill × List LogEvent :=
  match SkillFrontmatterSchema_parse data with
  | none => (none, [LogEvent.invalidFrontmatter skillPath])
  | some frontmatter =>
    let skillDir := basename (dirname skillPath)
    if frontmatter.name ≠ skillDir then
      (none, [LogEvent.nameMismatch skillPath frontmatter.name skillDir])
    else
      (some { name := frontmatter.name,
              fullPath := dirname skillPath,
              toolName := generateToolName skillPath baseDir,
              description := frontmatter.description,
              allowedTools := frontmatter.allowedTools,
              metadata := frontmatter.metadata,
              license := frontmatter.license,
              content := trim markdown,
              path := skillPath }, [])

/-- `parseSkill` on a file as the external world presents it: `fileSplit`
returns `none` when reading the file or splitting its front matter throws
(the catch branch logs and yields null), otherwise the (header, markdown)
pair. -/
def parseSkillFile (fileSplit : String → Option (List (String × JsonVal) × String))
    (skillPath baseDir : String) : Option Skill × List LogEvent :=
  match fileSplit skillPath with
  | none => (none, [LogEvent.readFailure skillPath])
  | some (data, markdown) => parseSkill data markdown skillPath baseDir

/-- The duplicate-detection loop of `discoverSkills`: walk the tool names
with a seen set; a name already seen is pushed onto the duplicates array
(adding it to the set again is a no-op). -/
def detectDupsAux : List String → List String → List String → List String
  | _, dups, [] => dups
  | seen, dups, n :: ns =>
    if n ∈ seen then detectDupsAux seen (dups ++ [n]) ns
    else detectDupsAux (n :: seen) dups ns

/-- Duplicate tool names as collected by `discoverSkills` before the single
`console.warn`. -/
def detectDuplicates (names : List String) : List String :=
  detectDupsAux [] [] names

/-- src/index.ts `discoverSkills`.  `scan` models the recursive glob for
`SKILL.md` under one base path (`none` when scanning throws, e.g. the root is
missing — such a root is skipped silently); `fileSplit` models reading and
splitting one file.  Returns the skills pushed in root order then match
order, and the duplicate tool names (warned once iff the list is
non-empty). -/
def discoverSkills (fileSplit : String → Option (List (String × JsonVal) × String))
    (scan : String → Option (List String)) (basePaths : List String) :
    List Skill × List String :=
  let skills := basePaths.foldl (fun acc basePath =>
    match scan basePath with
    | none => acc
    | some found =>
      found.foldl (fun acc2 m =>
        match (parseSkillFile fileSplit m basePath).1 with
        | some skill => acc2 ++ [skill]
        | none => acc2) acc) []
  (skills, detectDuplicates (skills.map Skill.toolName))

/-- SKILL_PROMPT template of src/index.ts. -/
def SKILL_PROMPT : String := "<skill name=\"%\x7bname\x7d\">\n\n%\x7bcontent\x7d\n\n</skill>"

/-- RESOURCES_PROMPT template of src/index.ts. -/
def RESOURCES_PROMPT : String :=
  "<skill_resources>\nIMPORTANT: The skill %\x7bname\x7d may reference certain resource files. Use their full paths:\n\n%\x7bpaths\x7d\n</skill_resources>"

/-- The payload built by the generated tool's `execute`, with the enumerated
resource paths passed in: substitute the templates (name, fullPath, content
in that order, each a `replaceAllJS`), then append the resources block iff
at least one resource path was collected, with the paths joined by
newlines. -/
def renderSkill (skill : Skill) (resourcePaths : List String) : String :=
  let prompt :=
    replaceAllJS ("%\x7bcontent\x7d".toList) skill.content.toList
      (replaceAllJS ("%\x7bfullPath\x7d".toList) skill.fullPath.toList
        (replaceAllJS ("%\x7bname\x7d".toList) skill.name.toList SKILL_PROMPT.toList))
  if resourcePaths.length > 0 then
    String.mk (prompt ++ "\n\n".toList
      ++ replaceAllJS ("%\x7bpaths\x7d".toList)
          (jsJoin ['\n'] (resourcePaths.map String.toList))
          (replaceAllJS ("%\x7bname\x7d".toList) skill.name.toList
            RESOURCES_PROMPT.toList))
  else String.mk prompt

/-- One Bun `Glob("**/*")` match test with the default options (no
`dot:true`): a relative path is matched iff none of its components starts
with a dot. -/
def globStarStarMatch (segs : List (List Char)) : Bool :=
  segs.all (fun s => s.head? != some '.')

/-- Model of the Bun `Glob("**/*").scan` used by `execute` (`absolute:true`,
default options): `files` lists the relative component chains of every file
below the skill directory; the scan yields the absolute paths of the matched
ones. -/
def globScan (dirSegs : List (List Char)) (files : List (List (List Char))) :
    List String :=
  (files.filter globStarStarMatch).map (fun segs => absS (dirSegs ++ segs))

/-- The resource-enumeration step of `execute`: every scan match whose
basename is not `SKILL.md`. -/
def enumerateResources (dirSegs : List (List Char))
    (files : List (List (List Char))) : List String :=
  (globScan dirSegs files).filter (fun m => basename m ≠ "SKILL.md")

/-- A header with the given name and a long-enough description. -/
def demoHeader (n : String) : List (String × JsonVal) :=
  [("name", JsonVal.str n),
   ("description", JsonVal.str "a description long enough to pass")]

/-- Header that is valid except for a numeric `license`. -/
def dataLicenseNum : List (String × JsonVal) :=
  [("name", JsonVal.str "valid-name"),
   ("description", JsonVal.str "a description long enough to pass"),
   ("license", JsonVal.num 5)]

/-- A concrete validated bundle used to instantiate the rendering claim. -/
def demoSkill : Skill :=
  { name := "demo",
    fullPath := "/r/skills/demo",
    toolName := "skills_demo",
    description := "a description long enough to pass",
    allowedTools := none,
    metadata := none,
    license := none,
    content := "# Hello",
    path := "/r/skills/demo/SKILL.md" }

/-- World in which every scanned root holds one skill named `x`. -/
def tripleSplit : String → Option (List (String × JsonVal) × String) :=
  fun _ => some (demoHeader "x", "body")

/-- Every root matches exactly one metadata file, `<root>/x/SKILL.md`. -/
def tripleScan : String → Option (List String) :=
  fun r => some [String.mk (r.toList ++ "/x/SKILL.md".toList)]

/-- File tree (relative component chains below the bundle directory) used to
instantiate the resource-enumeration claim. -/
def demoTree : List (List (List Char)) :=
  [["nested".toList, "SKILL.md".toList],
   ["nested".toList, "a.txt".toList],
   [".config".toList, "x.txt".toList],
   ["top.txt".toList]]

/-- A bundle whose body consists of `$`-substitution metacharacters. -/
def dollarSkill : Skill :=
  { name := "demo",
    fullPath := "/r/skills/demo",
    toolName := "skills_demo",
    description := "a description long enough to pass",
    allowedTools := none,
    metadata := none,
    license := none,
    content := "$$",
    path := "/r/skills/demo/SKILL.md" }

theorem toList_mk (l : List Char) : (String.mk l).toList = l := rfl

theorem replaceAllGo_fuel (pat rep : List Char) :
    ∀ n s, s.length ≤ n → replaceAllGo pat rep n s = replaceAllGo pat rep s.length s := by
  intro n
  induction n using Nat.strong_induction_on with
  | _ n ih =>
    intro s hs
    match n, s with
    | 0, s =>
      interval_cases hlen : s.length
      cases s with
      | nil => rfl
      | cons c cs => simp at hlen
    | m + 1, [] => rfl
    | m + 1, c :: cs =>
      have hcs : cs.length ≤ m := by simpa using hs
      show replaceAllGo pat rep (m + 1) (c :: cs)
          = replaceAllGo pat rep (cs.length + 1) (c :: cs)
      simp only [replaceAllGo]
      by_cases hcond : (!pat.isEmpty && pat.isPrefixOf (c :: cs)) = true
      · rw [if_pos hcond, if_pos hcond]
        have hplen : 1 ≤ pat.length := by
          cases pat with
          | nil => simp at hcond
          | cons p ps => simp
        have hdrop : (List.drop pat.length (c :: cs)).length ≤ cs.length := by
          simp only [List.length_drop, List.length_cons]
          omega
        rw [ih m (by omega) _ (le_trans hdrop hcs),
          ih cs.length (by omega) _ hdrop]
      · rw [if_neg hcond, if_neg hcond, ih m (by omega) cs hcs,
          ih cs.length (by omega) cs (le_refl _)]

theorem replaceAll_cons_pos (pat rep : List Char) (c : Char) (cs : List Char)
    (h : (!pat.isEmpty && pat.isPrefixOf (c :: cs)) = true) :
    replaceAll pat rep (c :: cs)
      = rep ++ replaceAll pat rep (List.drop pat.length (c :: cs)) := by
  show replaceAllGo pat rep (cs.length + 1) (c :: cs) = _
  simp only [replaceAllGo, if_pos h]
  have hplen : 1 ≤ pat.length := by
    cases pat with
    | nil => simp at h
    | cons p ps => simp
  have hdrop : (List.drop pat.length (c :: cs)).length ≤ cs.length := by
    simp only [List.length_drop, List.length_cons]
    omega
  rw [replaceAllGo_fuel pat rep cs.length _ hdrop]
  rfl

theorem replaceAll_cons_neg (pat rep : List Char) (c : Char) (cs : List Char)
    (h : ¬((!pat.isEmpty && pat.isPrefixOf (c :: cs)) = true)) :
    replaceAll pat rep (c :: cs) = c :: replaceAll pat rep cs := by
  show replaceAllGo pat rep (cs.length + 1) (c :: cs) = _
  simp only [replaceAllGo, if_neg h]
  rfl

/-- A scan that never sees the pattern's first character passes the text
through unchanged up to that point. -/
theorem replaceAll_append_of_head_notMem (pat rep A B : List Char)
    (hA : ∀ a ∈ A, pat.head? ≠ some a) :
    replaceAll pat rep (A ++ B) = A ++ replaceAll pat rep B := by
  induction A with
  | nil => simp
  | cons a A ih =>
    have hna : ¬((!pat.isEmpty && pat.isPrefixOf (a :: (A ++ B))) = true) := by
      cases pat with
      | nil => simp
      | cons p ps =>
        have hpa : p ≠ a := by
          have := hA a (by simp)
          simpa using this
        simp [List.isPrefixOf, hpa]
    rw [List.cons_append, replaceAll_cons_neg _ _ _ _ hna,
      ih (fun x hx => hA x (by simp [hx])), List.cons_append]

/-- A scan standing exactly at an occurrence replaces it and moves past it. -/
theorem replaceAll_pat_append (pat rep B : List Char) (hp : pat ≠ []) :
    replaceAll pat rep (pat ++ B) = rep ++ replaceAll pat rep B := by
  match pat, hp with
  | p :: ps, _ =>
    have hcond : (!(p :: ps).isEmpty && (p :: ps).isPrefixOf (p :: (ps ++ B))) = true := by
      have : (p :: ps) <+: (p :: ps) ++ B := List.prefix_append _ _
      simp only [List.cons_append] at this
      simp [List.isPrefixOf_iff_prefix, this]
    rw [List.cons_append, replaceAll_cons_pos _ _ _ _ hcond]
    congr 1
    have : p :: (ps ++ B) = (p :: ps) ++ B := rfl
    rw [this, List.drop_left]

/-- Text with no occurrence of the pattern is left unchanged. -/
theorem replaceAll_of_not_containsSub (pat rep B : List Char)
    (h : containsSub pat B = false) :
    replaceAll pat rep B = B := by
  induction B with
  | nil => rfl
  | cons c cs ih =>
    simp only [containsSub, Bool.or_eq_false_iff] at h
    rw [replaceAll_cons_neg _ _ _ _ (by simp [h.1]), ih h.2]

/-- Single-character `replaceAll` is a character map. -/
theorem replaceAll_single (a b : Char) (s : List Char) :
    replaceAll [a] [b] s = s.map (fun c => if c = a then b else c) := by
  induction s with
  | nil => rfl
  | cons c cs ih =>
    by_cases hc : c = a
    · subst hc
      rw [replaceAll_cons_pos _ _ _ _ (by simp [List.isPrefixOf])]
      simp [ih]
    · rw [replaceAll_cons_neg _ _ _ _ (by simp [List.isPrefixOf, Ne.symm hc])]
      simp [hc, ih]

theorem jsSplit_ne_nil (sep : Char) (s : List Char) : jsSplit sep s ≠ [] := by
  induction s with
  | nil => simp [jsSplit]
  | cons c cs ih =>
    simp only [jsSplit]
    by_cases hc : c = sep
    · simp [hc]
    · rw [if_neg hc]
      match hs : jsSplit sep cs with
      | [] => exact absurd hs ih
      | s :: ss => simp

theorem jsSplit_no_sep (sep : Char) (s : List Char) (h : sep ∉ s) :
    jsSplit sep s = [s] := by
  induction s with
  | nil => rfl
  | cons c cs ih =>
    simp only [List.mem_cons, not_or] at h
    have hc : ¬(c = sep) := fun e => h.1 e.symm
    simp only [jsSplit, if_neg hc, ih h.2]

theorem jsSplit_append_sep (sep : Char) (x t : List Char) (hx : sep ∉ x) :
    jsSplit sep (x ++ sep :: t) = x :: jsSplit sep t := by
  induction x with
  | nil => simp [jsSplit]
  | cons a x ih =>
    simp only [List.mem_cons, not_or] at hx
    have ha : ¬(a = sep) := fun e => hx.1 e.symm
    simp only [List.cons_append, jsSplit, if_neg ha, List.append_eq, ih hx.2]

theorem jsSplit_jsJoin (sep : Char) (L : List (List Char)) (hL : L ≠ [])
    (h : ∀ s ∈ L, sep ∉ s) :
    jsSplit sep (jsJoin [sep] L) = L := by
  induction L with
  | nil => exact absurd rfl hL
  | cons x L ih =>
    cases L with
    | nil => exact jsSplit_no_sep sep x (h x (by simp))
    | cons y M =>
      have hjoin : jsJoin [sep] (x :: y :: M) = x ++ sep :: jsJoin [sep] (y :: M) := by
        simp [jsJoin]
      rw [hjoin, jsSplit_append_sep sep _ _ (h x (by simp)),
        ih (by simp) (fun s hs => h s (by simp [hs]))]

theorem jsJoin_ne_nil (sep : List Char) (x : List Char) (L : List (List Char))
    (hx : x ≠ []) : jsJoin sep (x :: L) ≠ [] := by
  cases L with
  | nil => simpa [jsJoin]
  | cons y M => simp [jsJoin, hx]

theorem commonPrefixLen_self_append (l m : List (List Char)) :
    commonPrefixLen l (l ++ m) = l.length := by
  induction l with
  | nil =>
    cases m with
    | nil => rfl
    | cons y M => rfl
  | cons a l ih => simp [commonPrefixLen, ih, Nat.add_comm]

theorem jsSplit_absS_filter (segs : List (List Char)) (h : ∀ s ∈ segs, goodSeg s) :
    (jsSplit '/' ('/' :: jsJoin ['/'] segs)).filter (fun s => s ≠ []) = segs := by
  have hstep : jsSplit '/' ('/' :: jsJoin ['/'] segs) = [] :: jsSplit '/' (jsJoin ['/'] segs) := by
    simp [jsSplit]
  rw [hstep]
  cases segs with
  | nil => simp [jsJoin, jsSplit]
  | cons x L =>
    rw [jsSplit_jsJoin '/' (x :: L) (by simp) (fun s hs => (h s hs).2)]
    have hall : ∀ s ∈ x :: L, decide (s ≠ []) = true := fun s hs => by
      simpa using (h s hs).1
    calc List.filter (fun s => decide (s ≠ [])) ([] :: x :: L)
        = List.filter (fun s => decide (s ≠ [])) (x :: L) := by simp
      _ = x :: L := List.filter_eq_self.mpr hall

theorem replaceAll_hyphen_fun :
    replaceAll ['-'] ['_'] = fun s => s.map (fun c => if c = '-' then '_' else c) :=
  funext (replaceAll_single '-' '_')

/-- Replacing hyphens after joining with underscores is the same as replacing
them segment-wise before joining (the separator is a fixed point). -/
theorem replaceAll_hyphen_jsJoin (L : List (List Char)) :
    replaceAll ['-'] ['_'] (jsJoin ['_'] L)
      = jsJoin ['_'] (L.map (replaceAll ['-'] ['_'])) := by
  rw [replaceAll_hyphen_fun]
  induction L with
  | nil => rfl
  | cons x L ih =>
    cases L with
    | nil => rfl
    | cons y M =>
      simp only [List.map_cons] at ih ⊢
      simp only [jsJoin, List.map_append, List.map_cons, List.map_nil, ite_self, ih]

/-- `generateToolName`, applied to a root of well-formed segments and a
metadata file `chain/fname` below it, computes exactly the spec's identifier
of the directory chain. -/
theorem generateToolName_eq (rsegs chain : List (List Char)) (fname : List Char)
    (hr : ∀ s ∈ rsegs, goodSeg s) (hc : ∀ s ∈ chain, goodSeg s) (hf : goodSeg fname) :
    generateToolName (absS (rsegs ++ chain ++ [fname])) (absS rsegs)
      = specIdentifier chain := by
  have hall : ∀ s ∈ rsegs ++ chain ++ [fname], goodSeg s := by
    intro s hs
    rcases List.mem_append.mp hs with h1 | h2
    · rcases List.mem_append.mp h1 with h3 | h4
      exacts [hr s h3, hc s h4]
    · simp only [List.mem_singleton] at h2
      subst h2
      exact hf
  have hbs : (jsSplit '/' ('/' :: jsJoin ['/'] rsegs)).filter (fun s => s ≠ []) = rsegs :=
    jsSplit_absS_filter rsegs hr
  have hts : (jsSplit '/' ('/' :: jsJoin ['/'] (rsegs ++ chain ++ [fname]))).filter
      (fun s => s ≠ []) = rsegs ++ chain ++ [fname] :=
    jsSplit_absS_filter _ hall
  have hrel : posixRelative ('/' :: jsJoin ['/'] rsegs)
      ('/' :: jsJoin ['/'] (rsegs ++ chain ++ [fname]))
      = jsJoin ['/'] (chain ++ [fname]) := by
    simp only [posixRelative, hbs, hts]
    rw [List.append_assoc rsegs chain [fname], commonPrefixLen_self_append]
    simp [List.drop_left]
  have hsplit : jsSplit '/' (jsJoin ['/'] (chain ++ [fname])) = chain ++ [fname] :=
    jsSplit_jsJoin '/' _ (by simp) (by
      intro s hs
      rcases List.mem_append.mp hs with h1 | h2
      · exact (hc s h1).2
      · simp only [List.mem_singleton] at h2
        subst h2
        exact hf.2)
  simp only [generateToolName, absS, toList_mk, hrel]
  cases chain with
  | nil =>
    have hfn : jsJoin ['/'] ([] ++ [fname]) = fname := by simp [jsJoin]
    rw [hfn]
    have hdir : posixDirname fname = ['.'] := by
      simp only [posixDirname, jsSplit_no_sep '/' fname hf.2]
      rfl
    rw [hdir]
    decide
  | cons c0 chain =>
    have hdir : posixDirname (jsJoin ['/'] ((c0 :: chain) ++ [fname]))
        = jsJoin ['/'] (c0 :: chain) := by
      simp only [posixDirname, hsplit]
      have hlen : ¬(((c0 :: chain) ++ [fname]).length ≤ 1) := by
        simp
      rw [if_neg hlen, List.dropLast_concat]
      rw [if_neg (jsJoin_ne_nil ['/'] c0 chain (hc c0 (by simp)).1)]
    rw [hdir, jsSplit_jsJoin '/' (c0 :: chain) (by simp)
      (fun s hs => (hc s hs).2)]
    simp only [specIdentifier, replaceAll_hyphen_jsJoin]

theorem zString_eq_some (v : JsonVal) (s : String) :
    zString v = some s ↔ v = JsonVal.str s := by
  cases v <;> simp [zString]

theorem allStrings_map_str (ss : List String) :
    allStrings (ss.map JsonVal.str) = some ss := by
  induction ss with
  | nil => rfl
  | cons s ss ih => simp [allStrings, zString, ih]

theorem allStrings_isSome (xs : List JsonVal) :
    (allStrings xs).isSome = true ↔ ∃ ss : List String, xs = ss.map JsonVal.str := by
  induction xs with
  | nil => exact ⟨fun _ => ⟨[], rfl⟩, fun _ => rfl⟩
  | cons v vs ih =>
    constructor
    · intro h
      rw [allStrings] at h
      cases hv : zString v with
      | none => rw [hv] at h; simp at h
      | some s =>
        cases hvs : allStrings vs with
        | none => rw [hv, hvs] at h; simp at h
        | some ss =>
          rcases ih.mp (by rw [hvs]; rfl) with ⟨ss', hss'⟩
          exact ⟨s :: ss', by
            rw [List.map_cons, ← hss', (zString_eq_some v s).mp hv]⟩
    · rintro ⟨ss, hss⟩
      rw [hss, allStrings_map_str]
      rfl

theorem allStringValues_map (kvs : List (String × String)) :
    allStringValues (kvs.map (fun p => (p.1, JsonVal.str p.2))) = some kvs := by
  induction kvs with
  | nil => rfl
  | cons p kvs ih => simp [allStringValues, zString, ih]

theorem allStringValues_isSome (kvs : List (String × JsonVal)) :
    (allStringValues kvs).isSome = true
      ↔ ∃ m : List (String × String), kvs = m.map (fun p => (p.1, JsonVal.str p.2)) := by
  induction kvs with
  | nil => exact ⟨fun _ => ⟨[], rfl⟩, fun _ => rfl⟩
  | cons p ps ih =>
    rcases p with ⟨k, v⟩
    constructor
    · intro h
      rw [allStringValues] at h
      cases hv : zString v with
      | none => rw [hv] at h; simp at h
      | some s =>
        cases hvs : allStringValues ps with
        | none => rw [hv, hvs] at h; simp at h
        | some ss =>
          rcases ih.mp (by rw [hvs]; rfl) with ⟨m, hm⟩
          exact ⟨(k, s) :: m, by
            rw [List.map_cons, ← hm, (zString_eq_some v s).mp hv]⟩
    · rintro ⟨m, hm⟩
      rw [hm, allStringValues_map]
      rfl

theorem parseNameField_isSome (data : List (String × JsonVal)) :
    (parseNameField data).isSome = true ↔ nameAccepted data := by
  unfold parseNameField nameAccepted
  cases hl : data.lookup "name" with
  | none => simp
  | some v =>
    cases v with
    | str s =>
      simp only [Option.some.injEq, JsonVal.str.injEq]
      by_cases hcond : (!s.isEmpty && s.toList.all isNameChar) = true
      · rw [if_pos hcond]
        rw [Bool.and_eq_true] at hcond
        rcases hcond with ⟨h1, h2⟩
        simp only [Option.isSome_some, true_iff]
        refine ⟨s, rfl, ?_, fun c hc => List.all_eq_true.mp h2 c hc⟩
        intro he
        rw [he] at h1
        exact absurd h1 (by decide)
      · rw [if_neg hcond]
        simp only [Option.isSome_none, Bool.false_eq_true, false_iff]
        rintro ⟨s', hs, hne, hall⟩
        rcases hs with ⟨rfl⟩
        apply hcond
        rw [Bool.and_eq_true]
        refine ⟨?_, List.all_eq_true.mpr hall⟩
        have hef : s.isEmpty = false := by
          cases hb : s.isEmpty
          · rfl
          · exact absurd ((String.isEmpty_iff s).mp hb) hne
        rw [hef]
        rfl
    | num n => simp
    | boolean b => simp
    | null => simp
    | arr xs => simp
    | obj kvs => simp

theorem parseDescriptionField_isSome (data : List (String × JsonVal)) :
    (parseDescriptionField data).isSome = true ↔ descriptionAccepted data := by
  unfold parseDescriptionField descriptionAccepted
  cases hl : data.lookup "description" with
  | none => simp
  | some v =>
    cases v with
    | str s =>
      simp only [Option.some.injEq, JsonVal.str.injEq]
      by_cases hcond : 20 ≤ s.length
      · rw [if_pos hcond]
        simp only [Option.isSome_some, true_iff]
        exact ⟨s, rfl, hcond⟩
      · rw [if_neg hcond]
        simp only [Option.isSome_none, Bool.false_eq_true, false_iff]
        rintro ⟨s', hs, hlen⟩
        rcases hs with ⟨rfl⟩
        exact hcond hlen
    | num n => simp
    | boolean b => simp
    | null => simp
    | arr xs => simp
    | obj kvs => simp

theorem parseLicenseField_isSome (data : List (String × JsonVal)) :
    (parseLicenseField data).isSome = true ↔ ¬ licenseBad data := by
  unfold parseLicenseField licenseBad
  cases hl : data.lookup "license" with
  | none => simp
  | some v =>
    simp only [Option.some.injEq]
    cases v with
    | str s =>
      simp only [Option.isSome_some, true_iff]
      rintro ⟨v', rfl, hbad⟩
      exact hbad s rfl
    | num n =>
      simp only [Option.isSome_none, Bool.false_eq_true, false_iff, not_not]
      exact ⟨_, rfl, fun s h => JsonVal.noConfusion h⟩
    | boolean b =>
      simp only [Option.isSome_none, Bool.false_eq_true, false_iff, not_not]
      exact ⟨_, rfl, fun s h => JsonVal.noConfusion h⟩
    | null =>
      simp only [Option.isSome_none, Bool.false_eq_true, false_iff, not_not]
      exact ⟨_, rfl, fun s h => JsonVal.noConfusion h⟩
    | arr xs =>
      simp only [Option.isSome_none, Bool.false_eq_true, false_iff, not_not]
      exact ⟨_, rfl, fun s h => JsonVal.noConfusion h⟩
    | obj kvs =>
      simp only [Option.isSome_none, Bool.false_eq_true, false_iff, not_not]
      exact ⟨_, rfl, fun s h => JsonVal.noConfusion h⟩

theorem parseAllowedToolsField_isSome (data : List (String × JsonVal)) :
    (parseAllowedToolsField data).isSome = true ↔ ¬ allowedToolsBad data := by
  unfold parseAllowedToolsField allowedToolsBad
  cases hl : data.lookup "allowed-tools" with
  | none => simp
  | some v =>
    simp only [Option.some.injEq]
    cases v with
    | arr xs =>
      show (Option.map some (allStrings xs)).isSome = true ↔ _
      rw [Option.isSome_map']
      rw [allStrings_isSome]
      constructor
      · rintro ⟨ss, rfl⟩ ⟨v', rfl, hbad⟩
        exact hbad ss rfl
      · intro h
        by_contra hno
        apply h
        refine ⟨_, rfl, fun ss hss => ?_⟩
        rcases hss with ⟨rfl⟩
        exact hno ⟨ss, rfl⟩
    | str s =>
      simp only [Option.isSome_none, Bool.false_eq_true, false_iff, not_not]
      exact ⟨_, rfl, fun ss h => JsonVal.noConfusion h⟩
    | num n =>
      simp only [Option.isSome_none, Bool.false_eq_true, false_iff, not_not]
      exact ⟨_, rfl, fun ss h => JsonVal.noConfusion h⟩
    | boolean b =>
      simp only [Option.isSome_none, Bool.false_eq_true, false_iff, not_not]
      exact ⟨_, rfl, fun ss h => JsonVal.noConfusion h⟩
    | null =>
      simp only [Option.isSome_none, Bool.false_eq_true, false_iff, not_not]
      exact ⟨_, rfl, fun ss h => JsonVal.noConfusion h⟩
    | obj kvs =>
      simp only [Option.isSome_none, Bool.false_eq_true, false_iff, not_not]
      exact ⟨_, rfl, fun ss h => JsonVal.noConfusion h⟩

theorem parseMetadataField_isSome (data : List (String × JsonVal)) :
    (parseMetadataField data).isSome = true ↔ ¬ metadataBad data := by
  unfold parseMetadataField metadataBad
  cases hl : data.lookup "metadata" with
  | none => simp
  | some v =>
    simp only [Option.some.injEq]
    cases v with
    | obj kvs =>
      show (Option.map some (allStringValues kvs)).isSome = true ↔ _
      rw [Option.isSome_map']
      rw [allStringValues_isSome]
      constructor
      · rintro ⟨m, rfl⟩ ⟨v', rfl, hbad⟩
        exact hbad m rfl
      · intro h
        by_contra hno
        apply h
        refine ⟨_, rfl, fun m hm => ?_⟩
        rcases hm with ⟨rfl⟩
        exact hno ⟨m, rfl⟩
    | str s =>
      simp only [Option.isSome_none, Bool.false_eq_true, false_iff, not_not]
      exact ⟨_, rfl, fun m h => JsonVal.noConfusion h⟩
    | num n =>
      simp only [Option.isSome_none, Bool.false_eq_true, false_iff, not_not]
      exact ⟨_, rfl, fun m h => JsonVal.noConfusion h⟩
    | boolean b =>
      simp only [Option.isSome_none, Bool.false_eq_true, false_iff, not_not]
      exact ⟨_, rfl, fun m h => JsonVal.noConfusion h⟩
    | null =>
      simp only [Option.isSome_none, Bool.false_eq_true, false_iff, not_not]
      exact ⟨_, rfl, fun m h => JsonVal.noConfusion h⟩
    | arr xs =>
      simp only [Option.isSome_none, Bool.false_eq_true, false_iff, not_not]
      exact ⟨_, rfl, fun m h => JsonVal.noConfusion h⟩

theorem parse_eq_none_iff (data : List (String × JsonVal)) :
    SkillFrontmatterSchema_parse data = none ↔
      parseNameField data = none ∨ parseDescriptionField data = none
      ∨ parseLicenseField data = none ∨ parseAllowedToolsField data = none
      ∨ parseMetadataField data = none := by
  unfold SkillFrontmatterSchema_parse
  cases parseNameField data <;> cases parseDescriptionField data <;>
    cases parseLicenseField data <;> cases parseAllowedToolsField data <;>
    cases parseMetadataField data <;> simp

/-- One full template substitution: the pattern occurs once, after a prefix
that never shows the pattern's first character and before a tail with no
occurrence. -/
theorem replaceAll_template (pat rep A B : List Char) (hp : pat ≠ [])
    (hA : ∀ a ∈ A, pat.head? ≠ some a) (hB : containsSub pat B = false) :
    replaceAll pat rep (A ++ pat ++ B) = A ++ rep ++ B := by
  rw [List.append_assoc, replaceAll_append_of_head_notMem pat rep A _ hA,
    replaceAll_pat_append pat rep B hp, replaceAll_of_not_containsSub pat rep B hB,
    ← List.append_assoc]

theorem head_notMem_of_percent (pat A : List Char) (hp : pat.head? = some '%')
    (hA : '%' ∉ A) : ∀ a ∈ A, pat.head? ≠ some a := by
  intro a ha h
  rw [hp] at h
  injection h with h'
  subst h'
  exact hA ha

theorem replaceAll_hyphen_id (s : List Char) (h : '-' ∉ s) :
    replaceAll ['-'] ['_'] s = s := by
  rw [replaceAll_single]
  conv_rhs => rw [← List.map_id s]
  apply List.map_congr_left
  intro c hc
  have hne : ¬(c = '-') := fun e => h (e ▸ hc)
  simp [hne]

theorem basename_absS (segs : List (List Char)) (fname : List Char)
    (hs : ∀ s ∈ segs ++ [fname], goodSeg s) :
    basename (absS (segs ++ [fname])) = String.mk fname := by
  unfold basename absS posixBasename
  rw [toList_mk]
  have hsplit : jsSplit '/' (jsJoin ['/'] (segs ++ [fname])) = segs ++ [fname] :=
    jsSplit_jsJoin '/' _ (by simp) (fun s hs' => (hs s hs').2)
  have hstep : jsSplit '/' ('/' :: jsJoin ['/'] (segs ++ [fname]))
      = [] :: (segs ++ [fname]) := by
    simp [jsSplit, hsplit]
  rw [hstep]
  have hlast : ([] :: (segs ++ [fname])).getLast? = some fname := by
    rw [show ([] :: (segs ++ [fname])) = (([] :: segs) ++ [fname]) by simp]
    exact List.getLast?_concat _
  rw [hlast]
  rfl

theorem detectDupsAux_count (n : String) :
    ∀ (ns seen dups : List String),
      (detectDupsAux seen dups ns).count n
        = dups.count n + (if n ∈ seen then ns.count n else ns.count n - 1) := by
  intro ns
  induction ns with
  | nil =>
    intro seen dups
    by_cases h : n ∈ seen <;> simp [detectDupsAux, h]
  | cons m ns ih =>
    intro seen dups
    by_cases hm : m ∈ seen
    · rw [show detectDupsAux seen dups (m :: ns) = detectDupsAux seen (dups ++ [m]) ns
        from by simp [detectDupsAux, hm]]
      rw [ih]
      by_cases hnm : n = m
      · subst hnm
        simp only [if_pos hm, List.count_append, List.count_cons]
        simp
        omega
      · have hb : ¬((m == n) = true) := by simp [Ne.symm hnm]
        simp only [List.count_append, List.count_cons, List.count_nil, hb]
        simp
    · rw [show detectDupsAux seen dups (m :: ns) = detectDupsAux (m :: seen) dups ns
        from by simp [detectDupsAux, hm]]
      rw [ih]
      by_cases hnm : n = m
      · subst hnm
        rw [if_pos (by simp : n ∈ n :: seen), if_neg hm]
        simp [List.count_cons]
      · have hmem : (n ∈ m :: seen) ↔ (n ∈ seen) := by simp [hnm]
        have hb : ¬((m == n) = true) := by simp [Ne.symm hnm]
        by_cases hseen : n ∈ seen
        · rw [if_pos (hmem.mpr hseen), if_pos hseen]
          simp [List.count_cons, hb]
        · rw [if_neg (fun hx => hseen (hmem.mp hx)), if_neg hseen]
          simp [List.count_cons, hb]

theorem detectDuplicates_count (names : List String) (n : String) :
    (detectDuplicates names).count n = names.count n - 1 := by
  have h := detectDupsAux_count n names [] []
  simpa [detectDuplicates] using h

theorem detectDuplicates_mem (names : List String) (n : String) :
    n ∈ detectDuplicates names ↔ 2 ≤ names.count n := by
  rw [← List.count_pos_iff, detectDuplicates_count]
  omega

theorem foldl_push_filterMap (f : String → Option Skill) :
    ∀ (ms : List String) (acc : List Skill),
      ms.foldl (fun acc2 m =>
        match f m with
        | some skill => acc2 ++ [skill]
        | none => acc2) acc = acc ++ ms.filterMap f := by
  intro ms
  induction ms with
  | nil =>
    intro acc
    simp
  | cons m ms ih =>
    intro acc
    cases hf : f m with
    | some s => simp [List.foldl_cons, hf, ih, List.filterMap_cons]
    | none => simp [List.foldl_cons, hf, ih, List.filterMap_cons]

theorem discover_foldl
    (fileSplit : String → Option (List (String × JsonVal) × String))
    (scan : String → Option (List String)) :
    ∀ (basePaths : List String) (acc : List Skill),
      basePaths.foldl (fun acc1 basePath =>
        match scan basePath with
        | none => acc1
        | some found =>
          found.foldl (fun acc2 m =>
            match (parseSkillFile fileSplit m basePath).1 with
            | some skill => acc2 ++ [skill]
            | none => acc2) acc1) acc
      = acc ++ basePaths.flatMap (fun basePath =>
          ((scan basePath).getD []).filterMap
            (fun m => (parseSkillFile fileSplit m basePath).1)) := by
  intro basePaths
  induction basePaths with
  | nil =>
    intro acc
    simp
  | cons bp bps ih =>
    intro acc
    cases hscan : scan bp with
    | none => simp [List.foldl_cons, hscan, ih]
    | some found =>
      simp only [List.foldl_cons, hscan]
      rw [foldl_push_filterMap, ih]
      simp [hscan]

/-- C1: for every root (well-formed segment list), directory chain and
metadata filename below it, `generateToolName` computes exactly the spec's
Identifier Deriver algorithm applied to the directory chain: relative path
from the root, filename dropped, `.` segments discarded, segments joined
with underscores with every hyphen replaced by an underscore, prefix
`skills_` prepended.  As a pure function of its two arguments it is
deterministic. -/
theorem identifierDeriver_spec (rsegs chain : List (List Char)) (fname : List Char)
    (hr : ∀ s ∈ rsegs, goodSeg s) (hc : ∀ s ∈ chain, goodSeg s) (hf : goodSeg fname) :
    generateToolName (absS (rsegs ++ chain ++ [fname])) (absS rsegs)
      = specIdentifier chain :=
  generateToolName_eq rsegs chain fname hr hc hf

/-- C1 witness: the spec's concrete example. -/
theorem identifierDeriver_spec_witness :
    generateToolName "/p/.tool/skills/document-skills/docx/META.md" "/p/.tool/skills"
      = "skills_document_skills_docx" := by
  have h := identifierDeriver_spec ["p".toList, ".tool".toList, "skills".toList]
    ["document-skills".toList, "docx".toList] "META.md".toList
    (by decide) (by decide) (by decide)
  have e1 : absS (["p".toList, ".tool".toList, "skills".toList]
      ++ ["document-skills".toList, "docx".toList] ++ ["META.md".toList])
      = "/p/.tool/skills/document-skills/docx/META.md" := by decide
  have e2 : absS ["p".toList, ".tool".toList, "skills".toList] = "/p/.tool/skills" := by decide
  have e3 : specIdentifier ["document-skills".toList, "docx".toList]
      = "skills_document_skills_docx" := by decide
  rw [e1, e2, e3] at h
  exact h

/-- C10: a metadata file sitting directly in a discovery root derives the
bare identifier `skills_` — the relative path's directory chain is only the
current-directory marker, which is discarded — so top-level metadata files
under any root share the identifier. -/
theorem toplevel_identifier (rsegs : List (List Char)) (fname : List Char)
    (hr : ∀ s ∈ rsegs, goodSeg s) (hf : goodSeg fname) :
    generateToolName (absS (rsegs ++ [fname])) (absS rsegs) = "skills_" := by
  have h := generateToolName_eq rsegs [] fname hr (by simp) hf
  simp only [List.append_nil] at h
  rw [h]
  decide

/-- C10 witness. -/
theorem toplevel_identifier_witness :
    generateToolName "/r/SKILL.md" "/r" = "skills_" := by
  have h := toplevel_identifier ["r".toList] "SKILL.md".toList (by decide) (by decide)
  have e1 : absS (["r".toList] ++ ["SKILL.md".toList]) = "/r/SKILL.md" := by decide
  have e2 : absS ["r".toList] = "/r" := by decide
  rw [e1, e2] at h
  exact h

/-- C8 (amended): under a fixed root, identifier derivation is injective over
distinct directory chains whose segments contain neither hyphens nor
underscores (and are not `.`).  Hyphen/underscore aliasing is the collision
class, and it is wider than the claim's per-segment collapsing: because the
joiner is itself an underscore, a hyphen or underscore inside a segment can
also alias a segment boundary (see the counterexample). -/
theorem identifier_injective_plain (rsegs c1 c2 : List (List Char)) (f1 f2 : List Char)
    (hr : ∀ s ∈ rsegs, goodSeg s)
    (h1 : ∀ s ∈ c1, goodSeg s ∧ '-' ∉ s ∧ '_' ∉ s ∧ s ≠ ['.'])
    (h2 : ∀ s ∈ c2, goodSeg s ∧ '-' ∉ s ∧ '_' ∉ s ∧ s ≠ ['.'])
    (hf1 : goodSeg f1) (hf2 : goodSeg f2)
    (hne : c1 ≠ c2) :
    generateToolName (absS (rsegs ++ c1 ++ [f1])) (absS rsegs)
      ≠ generateToolName (absS (rsegs ++ c2 ++ [f2])) (absS rsegs) := by
  rw [generateToolName_eq rsegs c1 f1 hr (fun s hs => (h1 s hs).1) hf1,
    generateToolName_eq rsegs c2 f2 hr (fun s hs => (h2 s hs).1) hf2]
  intro heq
  apply hne
  have hid : ∀ (c : List (List Char)),
      (∀ s ∈ c, goodSeg s ∧ '-' ∉ s ∧ '_' ∉ s ∧ s ≠ ['.']) →
      specIdentifier c = String.mk ("skills_".toList ++ jsJoin ['_'] c) := by
    intro c hcc
    unfold specIdentifier
    have hfil : c.filter (fun s => s ≠ ['.']) = c :=
      List.filter_eq_self.mpr (fun s hs => by simpa using (hcc s hs).2.2.2)
    rw [hfil]
    have hmap : c.map (replaceAll ['-'] ['_']) = c := by
      conv_rhs => rw [← List.map_id c]
      apply List.map_congr_left
      intro s hs
      exact replaceAll_hyphen_id s (hcc s hs).2.1
    rw [hmap]
  rw [hid c1 h1, hid c2 h2] at heq
  have hlist : "skills_".toList ++ jsJoin ['_'] c1 = "skills_".toList ++ jsJoin ['_'] c2 :=
    congrArg String.data heq
  have hjoin : jsJoin ['_'] c1 = jsJoin ['_'] c2 := List.append_cancel_left hlist
  cases c1 with
  | nil =>
    cases c2 with
    | nil => rfl
    | cons y ys =>
      exact absurd hjoin.symm (jsJoin_ne_nil ['_'] y ys ((h2 y (by simp)).1.1))
  | cons x xs =>
    cases c2 with
    | nil =>
      exact absurd hjoin (jsJoin_ne_nil ['_'] x xs ((h1 x (by simp)).1.1))
    | cons y ys =>
      have hs1 : jsSplit '_' (jsJoin ['_'] (x :: xs)) = x :: xs :=
        jsSplit_jsJoin '_' _ (by simp) (fun s hs => (h1 s hs).2.2.1)
      have hs2 : jsSplit '_' (jsJoin ['_'] (y :: ys)) = y :: ys :=
        jsSplit_jsJoin '_' _ (by simp) (fun s hs => (h2 s hs).2.2.1)
      rw [← hs1, ← hs2, hjoin]

/-- C8 witness: two plain sibling chains derive distinct identifiers. -/
theorem identifier_injective_plain_witness :
    generateToolName "/r/alpha/SKILL.md" "/r" ≠ generateToolName "/r/beta/SKILL.md" "/r" := by
  have h := identifier_injective_plain ["r".toList] ["alpha".toList] ["beta".toList]
    "SKILL.md".toList "SKILL.md".toList (by decide) (by decide) (by decide)
    (by decide) (by decide) (by decide)
  have e1 : absS (["r".toList] ++ ["alpha".toList] ++ ["SKILL.md".toList])
      = "/r/alpha/SKILL.md" := by decide
  have e2 : absS (["r".toList] ++ ["beta".toList] ++ ["SKILL.md".toList])
      = "/r/beta/SKILL.md" := by decide
  have e3 : absS ["r".toList] = "/r" := by decide
  rw [e1, e2, e3] at h
  exact h

/-- C8 counterexample: the chains `a-b` and `a/b` are distinct and do not
become equal under hyphen-to-underscore collapsing (they do not even have the
same number of segments), yet both derive the same identifier. -/
theorem identifier_collision_cex :
    generateToolName "/r/a-b/SKILL.md" "/r" = generateToolName "/r/a/b/SKILL.md" "/r"
      ∧ ["a-b".toList].map (replaceAll ['-'] ['_'])
          ≠ ["a".toList, "b".toList].map (replaceAll ['-'] ['_'])
      ∧ (["a-b".toList] : List (List Char)) ≠ ["a".toList, "b".toList] :=
  ⟨by decide, by decide, by decide⟩

/-- C2 (amended): the Schema Validator fails iff `name` is not declared as a
non-empty string matching `^[a-z0-9-]+$`, or `description` is not declared
as a string of length at least 20, or `allowed-tools` is present but not a
sequence of strings, or `metadata` is present but not a flat string-to-string
mapping, or — the condition the claim omits — `license` is present but not a
string; in every other case validation succeeds. -/
theorem schema_rejects_iff (data : List (String × JsonVal)) :
    SkillFrontmatterSchema_parse data = none ↔
      ¬ nameAccepted data ∨ ¬ descriptionAccepted data
      ∨ allowedToolsBad data ∨ metadataBad data ∨ licenseBad data := by
  have hnone : ∀ {α : Type} (o : Option α), o = none ↔ ¬(o.isSome = true) := by
    intro α o
    cases o <;> simp
  rw [parse_eq_none_iff, hnone (parseNameField data), hnone (parseDescriptionField data),
    hnone (parseLicenseField data), hnone (parseAllowedToolsField data),
    hnone (parseMetadataField data), parseNameField_isSome, parseDescriptionField_isSome,
    parseLicenseField_isSome, parseAllowedToolsField_isSome, parseMetadataField_isSome]
  tauto

/-- C2 counterexample: a header whose only flaw is a numeric `license`; none
of the claim's four rejection conditions holds, yet validation fails, so the
claimed equivalence is false for this header. -/
theorem schema_license_cex :
    SkillFrontmatterSchema_parse dataLicenseNum = none
      ∧ nameAccepted dataLicenseNum ∧ descriptionAccepted dataLicenseNum
      ∧ ¬ allowedToolsBad dataLicenseNum ∧ ¬ metadataBad dataLicenseNum := by
  refine ⟨by decide, ⟨"valid-name", rfl, by decide, by decide⟩,
    ⟨"a description long enough to pass", rfl, by decide⟩, ?_, ?_⟩
  · rintro ⟨v, hv, _⟩
    have hnl : dataLicenseNum.lookup "allowed-tools" = none := rfl
    rw [hnl] at hv
    exact Option.noConfusion hv
  · rintro ⟨v, hv, _⟩
    have hnl : dataLicenseNum.lookup "metadata" = none := rfl
    rw [hnl] at hv
    exact Option.noConfusion hv

/-- C3: a readable metadata file whose header passes the schema and whose
declared name equals its directory's name parses to a bundle (with no
diagnostics) whose `name` is the header's name, whose `content` is the
trimmed markdown, and whose tool name is `generateToolName skillPath
baseDir` — an expression in the path and root alone, so any other passing
header at the same path/root yields the same identifier. -/
theorem parseSkill_success (data : List (String × JsonVal)) (markdown : String)
    (skillPath baseDir : String) (fm : SkillFrontmatter)
    (hparse : SkillFrontmatterSchema_parse data = some fm)
    (hdir : fm.name = basename (dirname skillPath)) :
    parseSkill data markdown skillPath baseDir
      = (some {
          name := fm.name,
          fullPath := dirname skillPath,
          toolName := generateToolName skillPath baseDir,
          description := fm.description,
          allowedTools := fm.allowedTools,
          metadata := fm.metadata,
          license := fm.license,
          content := trim markdown,
          path := skillPath }, [])
    ∧ ∀ (data2 : List (String × JsonVal)) (markdown2 : String) (fm2 : SkillFrontmatter),
        SkillFrontmatterSchema_parse data2 = some fm2 →
        fm2.name = basename (dirname skillPath) →
        ((parseSkill data2 markdown2 skillPath baseDir).1.map Skill.toolName)
          = some (generateToolName skillPath baseDir) := by
  constructor
  · simp only [parseSkill, hparse]
    rw [if_neg (by simp [hdir])]
  · intro data2 markdown2 fm2 hp2 hd2
    simp only [parseSkill, hp2]
    rw [if_neg (by simp [hd2])]
    rfl

/-- C3 witness: the spec's end-to-end demo bundle. -/
theorem parseSkill_success_witness :
    parseSkill (demoHeader "demo") "# Hello" "/r/skills/demo/SKILL.md" "/r/skills"
      = (some {
          name := "demo",
          fullPath := "/r/skills/demo",
          toolName := "skills_demo",
          description := "a description long enough to pass",
          allowedTools := none,
          metadata := none,
          license := none,
          content := "# Hello",
          path := "/r/skills/demo/SKILL.md" }, []) := by
  have h := (parseSkill_success (demoHeader "demo") "# Hello" "/r/skills/demo/SKILL.md"
    "/r/skills" {
      name := "demo",
      description := "a description long enough to pass",
      license := none,
      allowedTools := none,
      metadata := none }
    (by decide) (by decide)).1
  exact h.trans (by decide)

/-- C9: when the schema passes but the declared name differs from the
containing directory's name, `parseSkill` returns no bundle and logs exactly
one diagnostic carrying both the declared name and the directory name. -/
theorem parseSkill_name_mismatch (data : List (String × JsonVal)) (markdown : String)
    (skillPath baseDir : String) (fm : SkillFrontmatter)
    (hparse : SkillFrontmatterSchema_parse data = some fm)
    (hdir : fm.name ≠ basename (dirname skillPath)) :
    parseSkill data markdown skillPath baseDir
      = (none, [LogEvent.nameMismatch skillPath fm.name
          (basename (dirname skillPath))]) := by
  simp only [parseSkill, hparse]
  rw [if_pos hdir]

/-- C9 witness: header name `foo` in directory `bar`. -/
theorem parseSkill_name_mismatch_witness :
    parseSkill (demoHeader "foo") "body" "/r/bar/SKILL.md" "/r"
      = (none, [LogEvent.nameMismatch "/r/bar/SKILL.md" "foo" "bar"]) := by
  have h := parseSkill_name_mismatch (demoHeader "foo") "body" "/r/bar/SKILL.md" "/r"
    {
      name := "foo",
      description := "a description long enough to pass",
      license := none,
      allowedTools := none,
      metadata := none }
    (by decide) (by decide)
  exact h.trans (by decide)

/-- C4: discovery returns exactly the non-null parse results, ordered by the
given root order and, within a root, by matching order — a `filterMap` over
the flattened match lists.  The result does not depend on the derived
identifiers at all, so bundles sharing an identifier are all kept. -/
theorem discoverSkills_collects
    (fileSplit : String → Option (List (String × JsonVal) × String))
    (scan : String → Option (List String)) (basePaths : List String) :
    (discoverSkills fileSplit scan basePaths).1
      = basePaths.flatMap (fun basePath =>
          ((scan basePath).getD []).filterMap
            (fun m => (parseSkillFile fileSplit m basePath).1)) := by
  have h := discover_foldl fileSplit scan basePaths []
  exact h.trans (by simp)

/-- C7 (amended): the duplicate diagnostic of discovery contains exactly the
identifiers occurring more than once among the collected bundles — but an
identifier with n occurrences is listed n − 1 times (once per occurrence
after the first), not exactly once; it is surfaced as the single list of the
one aggregated warning. -/
theorem duplicate_diagnostic
    (fileSplit : String → Option (List (String × JsonVal) × String))
    (scan : String → Option (List String)) (basePaths : List String) (n : String) :
    ((discoverSkills fileSplit scan basePaths).2).count n
        = (((discoverSkills fileSplit scan basePaths).1.map Skill.toolName).count n) - 1
      ∧ (n ∈ (discoverSkills fileSplit scan basePaths).2
        ↔ 2 ≤ (((discoverSkills fileSplit scan basePaths).1.map Skill.toolName).count n)) :=
  ⟨detectDuplicates_count _ n, detectDuplicates_mem _ n⟩

/-- C7 counterexample: three collected bundles share `skills_x`; the
diagnostic lists the identifier twice, not exactly once. -/
theorem duplicate_diagnostic_cex :
    ((discoverSkills tripleSplit tripleScan ["/r1", "/r2", "/r3"]).1.map
        Skill.toolName).count "skills_x" = 3
      ∧ (discoverSkills tripleSplit tripleScan ["/r1", "/r2", "/r3"]).2
        = ["skills_x", "skills_x"] :=
  ⟨by decide, by decide⟩


/-- A `$`-free replacement passes through GetSubstitution unchanged. -/
theorem getSubstitution_id (matched before after rep : List Char)
    (h : '$' ∉ rep) : getSubstitution matched before after rep = rep := by
  induction rep with
  | nil => rfl
  | cons c rest ih =>
    simp only [List.mem_cons, not_or] at h
    cases rest with
    | nil => rfl
    | cons d rest2 =>
      have hc : ¬(c = '$') := fun e => h.1 e.symm
      simp only [getSubstitution, if_neg hc]
      exact congrArg (List.cons c) (ih h.2)

theorem replaceAllJSGo_eq_go (pat rep orig : List Char) (hrep : '$' ∉ rep) :
    ∀ (n pos : Nat), replaceAllJSGo pat rep orig n pos
      = replaceAllGo pat rep n (List.drop pos orig) := by
  intro n
  induction n with
  | zero => intro pos; rfl
  | succ n ih =>
    intro pos
    cases hd : List.drop pos orig with
    | nil => simp only [replaceAllJSGo, replaceAllGo, hd]
    | cons c cs =>
      simp only [replaceAllJSGo, replaceAllGo, hd]
      by_cases hcond : (!pat.isEmpty && pat.isPrefixOf (c :: cs)) = true
      · rw [if_pos hcond, if_pos hcond,
          getSubstitution_id pat (List.take pos orig)
            (List.drop (pos + pat.length) orig) rep hrep]
        congr 1
        rw [ih (pos + pat.length)]
        congr 1
        rw [← List.drop_drop, hd]
      · rw [if_neg hcond, if_neg hcond]
        congr 1
        rw [ih (pos + 1)]
        congr 1
        rw [← List.drop_drop, hd]
        rfl

/-- On a `$`-free replacement the full JS model coincides with the literal
one (in particular for the hyphen-to-underscore replace). -/
theorem replaceAllJS_eq_replaceAll (pat rep s : List Char) (hrep : '$' ∉ rep) :
    replaceAllJS pat rep s = replaceAll pat rep s :=
  replaceAllJSGo_eq_go pat rep s hrep s.length 0

theorem replaceAllJSGo_not_contains (pat rep orig : List Char) :
    ∀ (n pos : Nat), containsSub pat (List.drop pos orig) = false →
      replaceAllJSGo pat rep orig n pos = List.drop pos orig := by
  intro n
  induction n with
  | zero =>
    intro pos _
    rfl
  | succ n ih =>
    intro pos h
    cases hd : List.drop pos orig with
    | nil => simp only [replaceAllJSGo, hd]
    | cons c cs =>
      rw [hd] at h
      simp only [containsSub, Bool.or_eq_false_iff] at h
      simp only [replaceAllJSGo, hd]
      rw [if_neg (by simp [h.1])]
      have hdrop : List.drop (pos + 1) orig = cs := by
        rw [← List.drop_drop, hd]
        rfl
      congr 1
      rw [ih (pos + 1) (by rw [hdrop]; exact h.2), hdrop]

/-- Text with no occurrence of the pattern is left unchanged, whatever the
replacement. -/
theorem replaceAllJS_not_contains (pat rep s : List Char)
    (h : containsSub pat s = false) : replaceAllJS pat rep s = s :=
  replaceAllJSGo_not_contains pat rep s s.length 0 h

theorem containsSub_append_head_notMem (p : Char) (ps A B : List Char)
    (hA : p ∉ A) :
    containsSub (p :: ps) (A ++ B) = containsSub (p :: ps) B := by
  induction A with
  | nil => rfl
  | cons a A ih =>
    simp only [List.mem_cons, not_or] at hA
    have hpre : (p :: ps).isPrefixOf (a :: (A ++ B)) = false := by
      simp [List.isPrefixOf, hA.1]
    simp only [List.cons_append, containsSub, List.append_eq, hpre, Bool.false_or]
    exact ih hA.2

theorem notMem_jsJoin (c : Char) (sep : List Char) (L : List (List Char))
    (hsep : c ∉ sep) (hL : ∀ s ∈ L, c ∉ s) : c ∉ jsJoin sep L := by
  induction L with
  | nil => simp [jsJoin]
  | cons x L ih =>
    cases L with
    | nil => exact hL x (by simp)
    | cons y M =>
      have hj : jsJoin sep (x :: y :: M) = x ++ sep ++ jsJoin sep (y :: M) := by
        simp [jsJoin]
      rw [hj]
      simp only [List.mem_append, not_or]
      exact ⟨⟨hL x (by simp), hsep⟩, ih (fun s hs => hL s (by simp [hs]))⟩

/-- Appending well-formed segment chains to a fixed prefix and rendering the
absolute path is injective. -/
theorem absS_append_inj (d s1 s2 : List (List Char))
    (hd : ∀ s ∈ d, goodSeg s)
    (h1 : s1 ≠ []) (h1g : ∀ s ∈ s1, goodSeg s)
    (h2 : s2 ≠ []) (h2g : ∀ s ∈ s2, goodSeg s)
    (heq : absS (d ++ s1) = absS (d ++ s2)) : s1 = s2 := by
  have hl : '/' :: jsJoin ['/'] (d ++ s1) = '/' :: jsJoin ['/'] (d ++ s2) :=
    congrArg String.data heq
  injection hl with _ hj
  have hw1 : ∀ s ∈ d ++ s1, goodSeg s := by
    intro s hs
    rcases List.mem_append.mp hs with h | h
    exacts [hd s h, h1g s h]
  have hw2 : ∀ s ∈ d ++ s2, goodSeg s := by
    intro s hs
    rcases List.mem_append.mp hs with h | h
    exacts [hd s h, h2g s h]
  have hne1 : d ++ s1 ≠ [] := by simp [h1]
  have hne2 : d ++ s2 ≠ [] := by simp [h2]
  have e1 := jsSplit_jsJoin '/' (d ++ s1) hne1 (fun s hs => (hw1 s hs).2)
  have e2 := jsSplit_jsJoin '/' (d ++ s2) hne2 (fun s hs => (hw2 s hs).2)
  have hds : d ++ s1 = d ++ s2 := by rw [← e1, ← e2, hj]
  exact List.append_cancel_left hds

/-- C6 counterexample: `.config/x.txt` lies below the bundle directory with
a filename other than `SKILL.md`, yet the enumeration omits it — the glob
runs with the default `dot:false` and skips dot-named components. -/
theorem enumerateResources_dot_cex :
    absS (["b".toList, "s".toList] ++ [".config".toList, "x.txt".toList])
        = "/b/s/.config/x.txt"
      ∧ [".config".toList, "x.txt".toList] ∈ demoTree
      ∧ String.mk "x.txt".toList ≠ "SKILL.md"
      ∧ ("/b/s/.config/x.txt" : String)
          ∉ enumerateResources ["b".toList, "s".toList] demoTree :=
  ⟨by decide, by decide, by decide, by decide⟩

/-- C6 (amended): a file below the bundle directory — relative chain `chain`
plus filename `fname` — appears in the enumerated resources iff the glob
matched it and it survives the metadata filter: it is a file of the tree,
none of its relative path components starts with a dot (the scan runs with
the default `dot:false`), and its filename is not the metadata filename
`SKILL.md`.  The `SKILL.md` exclusion is by filename, at any depth. -/
theorem enumerateResources_iff (dirSegs : List (List Char))
    (files : List (List (List Char))) (chain : List (List Char)) (fname : List Char)
    (hd : ∀ s ∈ dirSegs, goodSeg s)
    (hfiles : ∀ f ∈ files, f ≠ [] ∧ ∀ s ∈ f, goodSeg s)
    (hc : ∀ s ∈ chain, goodSeg s) (hf : goodSeg fname) :
    absS (dirSegs ++ (chain ++ [fname])) ∈ enumerateResources dirSegs files
      ↔ (chain ++ [fname]) ∈ files
        ∧ (∀ s ∈ chain ++ [fname], s.head? ≠ some '.')
        ∧ String.mk fname ≠ "SKILL.md" := by
  have hwcf : ∀ s ∈ chain ++ [fname], goodSeg s := by
    intro s hs
    rcases List.mem_append.mp hs with h | h
    · exact hc s h
    · simp only [List.mem_singleton] at h
      subst h
      exact hf
  have hb : basename (absS (dirSegs ++ (chain ++ [fname]))) = String.mk fname := by
    have h := basename_absS (dirSegs ++ chain) fname (by
      intro s hs
      rcases List.mem_append.mp hs with h | h
      · rcases List.mem_append.mp h with h2 | h2
        exacts [hd s h2, hc s h2]
      · simp only [List.mem_singleton] at h
        subst h
        exact hf)
    rw [List.append_assoc] at h
    exact h
  unfold enumerateResources globScan
  rw [List.mem_filter]
  constructor
  · rintro ⟨hmem, hbase⟩
    rcases List.mem_map.mp hmem with ⟨segs, hsegs, hseq⟩
    rcases List.mem_filter.mp hsegs with ⟨hsf, hmatch⟩
    have hed : segs = chain ++ [fname] := by
      rcases hfiles segs hsf with ⟨hsne, hsg⟩
      exact absS_append_inj dirSegs segs (chain ++ [fname]) hd hsne hsg
        (by simp) hwcf hseq
    subst hed
    simp only [globStarStarMatch] at hmatch
    refine ⟨hsf, ?_, ?_⟩
    · intro s hs
      have := List.all_eq_true.mp hmatch s hs
      simpa using this
    · rw [hb] at hbase
      simpa using hbase
  · rintro ⟨hin, hdot, hnm⟩
    refine ⟨List.mem_map.mpr ⟨chain ++ [fname], List.mem_filter.mpr ⟨hin, ?_⟩, rfl⟩, ?_⟩
    · show (chain ++ [fname]).all (fun s => s.head? != some '.') = true
      exact List.all_eq_true.mpr (fun s hs => by simpa using hdot s hs)
    · rw [hb]
      simpa using hnm

/-- C6 witness: under bundle directory `/b/s`, the nested `SKILL.md` is
excluded while the sibling resource is included. -/
theorem enumerateResources_witness :
    ("/b/s/nested/SKILL.md" ∉ enumerateResources ["b".toList, "s".toList] demoTree)
      ∧ ("/b/s/nested/a.txt" ∈ enumerateResources ["b".toList, "s".toList] demoTree) := by
  have h1 := enumerateResources_iff ["b".toList, "s".toList] demoTree
    ["nested".toList] "SKILL.md".toList (by decide) (by decide) (by decide) (by decide)
  have h2 := enumerateResources_iff ["b".toList, "s".toList] demoTree
    ["nested".toList] "a.txt".toList (by decide) (by decide) (by decide) (by decide)
  have e1 : absS (["b".toList, "s".toList] ++ (["nested".toList] ++ ["SKILL.md".toList]))
      = "/b/s/nested/SKILL.md" := by decide
  have e2 : absS (["b".toList, "s".toList] ++ (["nested".toList] ++ ["a.txt".toList]))
      = "/b/s/nested/a.txt" := by decide
  rw [e1] at h1
  rw [e2] at h2
  constructor
  · intro hmem
    exact (h1.mp hmem).2.2 (by decide)
  · exact h2.mpr ⟨by decide, by decide, by decide⟩

set_option maxRecDepth 4000 in
/-- C5 counterexample: JS `replaceAll` applies `$`-substitution to the
replacement string, so a bundle body `$$` is rendered as a single `$` and
the payload does not contain the bundle's body anywhere. -/
theorem render_dollar_cex :
    dollarSkill.content = "$$"
      ∧ renderSkill dollarSkill [] = "<skill name=\"demo\">\n\n$\n\n</skill>"
      ∧ containsSub "$$".toList (renderSkill dollarSkill []).toList = false :=
  ⟨rfl, by decide, by decide⟩

/-- C5 (amended): for every bundle whose validated name contains no `%` and
whose name, body and resource paths contain no `$` — so that ECMAScript
`$`-substitution inserts each replacement literally — the rendered payload
is the `<skill>` block carrying the bundle's name and body, followed, if and
only if the resource list is non-empty, by the `<skill_resources>` block
naming the bundle and listing every resource path verbatim, one per line,
with no deduplication.  Replacements containing `$` instead undergo JS
`$`-substitution (see the counterexample). -/
theorem renderSkill_payload (skill : Skill) (resourcePaths : List String)
    (hname : '%' ∉ skill.name.toList) (hnd : '$' ∉ skill.name.toList)
    (hcd : '$' ∉ skill.content.toList)
    (hpd : ∀ p ∈ resourcePaths, '$' ∉ p.toList) :
    renderSkill skill resourcePaths = String.mk
      ("<skill name=\"".toList ++ skill.name.toList ++ "\">\n\n".toList
        ++ skill.content.toList ++ "\n\n</skill>".toList
        ++ (if resourcePaths = [] then []
            else "\n\n<skill_resources>\nIMPORTANT: The skill ".toList
              ++ skill.name.toList
              ++ " may reference certain resource files. Use their full paths:\n\n".toList
              ++ jsJoin ['\n'] (resourcePaths.map String.toList)
              ++ "\n</skill_resources>".toList)) := by
  have r1 : replaceAll ("%\x7bname\x7d".toList) skill.name.toList SKILL_PROMPT.toList
      = "<skill name=\"".toList ++ skill.name.toList
        ++ "\">\n\n%\x7bcontent\x7d\n\n</skill>".toList := by
    have e : SKILL_PROMPT.toList
        = "<skill name=\"".toList ++ "%\x7bname\x7d".toList
          ++ "\">\n\n%\x7bcontent\x7d\n\n</skill>".toList := by decide
    rw [e, replaceAll_template _ _ _ _ (by decide)
      (head_notMem_of_percent _ _ (by decide) (by decide)) (by decide)]
  have hA12 : '%' ∉ "<skill name=\"".toList ++ skill.name.toList := by
    simp only [List.mem_append, not_or]
    exact ⟨by decide, hname⟩
  have r3 : replaceAll ("%\x7bcontent\x7d".toList) skill.content.toList
      ("<skill name=\"".toList ++ skill.name.toList
        ++ "\">\n\n%\x7bcontent\x7d\n\n</skill>".toList)
      = "<skill name=\"".toList ++ skill.name.toList ++ "\">\n\n".toList
        ++ skill.content.toList ++ "\n\n</skill>".toList := by
    have e : "<skill name=\"".toList ++ skill.name.toList
        ++ "\">\n\n%\x7bcontent\x7d\n\n</skill>".toList
        = ("<skill name=\"".toList ++ skill.name.toList ++ "\">\n\n".toList)
          ++ "%\x7bcontent\x7d".toList ++ "\n\n</skill>".toList := by
      have e2 : ("\">\n\n%\x7bcontent\x7d\n\n</skill>".toList : List Char)
          = "\">\n\n".toList ++ "%\x7bcontent\x7d".toList ++ "\n\n</skill>".toList := by
        decide
      rw [e2]
      simp [List.append_assoc]
    have hA : '%' ∉ "<skill name=\"".toList ++ skill.name.toList ++ "\">\n\n".toList := by
      simp only [List.mem_append, not_or]
      exact ⟨⟨by decide, hname⟩, by decide⟩
    rw [e, replaceAll_template _ _ _ _ (by decide)
      (head_notMem_of_percent _ _ (by decide) hA) (by decide)]
  have r4 : replaceAll ("%\x7bname\x7d".toList) skill.name.toList RESOURCES_PROMPT.toList
      = "<skill_resources>\nIMPORTANT: The skill ".toList ++ skill.name.toList
        ++ " may reference certain resource files. Use their full paths:\n\n%\x7bpaths\x7d\n</skill_resources>".toList := by
    have e : RESOURCES_PROMPT.toList
        = "<skill_resources>\nIMPORTANT: The skill ".toList ++ "%\x7bname\x7d".toList
          ++ " may reference certain resource files. Use their full paths:\n\n%\x7bpaths\x7d\n</skill_resources>".toList := by
      decide
    rw [e, replaceAll_template _ _ _ _ (by decide)
      (head_notMem_of_percent _ _ (by decide) (by decide)) (by decide)]
  have r5 : replaceAll ("%\x7bpaths\x7d".toList)
      (jsJoin ['\n'] (resourcePaths.map String.toList))
      ("<skill_resources>\nIMPORTANT: The skill ".toList ++ skill.name.toList
        ++ " may reference certain resource files. Use their full paths:\n\n%\x7bpaths\x7d\n</skill_resources>".toList)
      = "<skill_resources>\nIMPORTANT: The skill ".toList ++ skill.name.toList
        ++ " may reference certain resource files. Use their full paths:\n\n".toList
        ++ jsJoin ['\n'] (resourcePaths.map String.toList)
        ++ "\n</skill_resources>".toList := by
    have e : "<skill_resources>\nIMPORTANT: The skill ".toList ++ skill.name.toList
        ++ " may reference certain resource files. Use their full paths:\n\n%\x7bpaths\x7d\n</skill_resources>".toList
        = ("<skill_resources>\nIMPORTANT: The skill ".toList ++ skill.name.toList
            ++ " may reference certain resource files. Use their full paths:\n\n".toList)
          ++ "%\x7bpaths\x7d".toList ++ "\n</skill_resources>".toList := by
      have e2 : (" may reference certain resource files. Use their full paths:\n\n%\x7bpaths\x7d\n</skill_resources>".toList : List Char)
          = " may reference certain resource files. Use their full paths:\n\n".toList
            ++ "%\x7bpaths\x7d".toList ++ "\n</skill_resources>".toList := by
        decide
      rw [e2]
      simp [List.append_assoc]
    have hA : '%' ∉ "<skill_resources>\nIMPORTANT: The skill ".toList
        ++ skill.name.toList
        ++ " may reference certain resource files. Use their full paths:\n\n".toList := by
      simp only [List.mem_append, not_or]
      exact ⟨⟨by decide, hname⟩, by decide⟩
    rw [e, replaceAll_template _ _ _ _ (by decide)
      (head_notMem_of_percent _ _ (by decide) hA) (by decide)]
  have hjd : '$' ∉ jsJoin ['\n'] (resourcePaths.map String.toList) :=
    notMem_jsJoin '$' ['\n'] _ (by decide) (by
      intro s hs
      rcases List.mem_map.mp hs with ⟨p, hp, rfl⟩
      exact hpd p hp)
  have R1 : replaceAllJS ("%\x7bname\x7d".toList) skill.name.toList SKILL_PROMPT.toList
      = "<skill name=\"".toList ++ skill.name.toList
        ++ "\">\n\n%\x7bcontent\x7d\n\n</skill>".toList :=
    (replaceAllJS_eq_replaceAll _ _ _ hnd).trans r1
  have R2 : replaceAllJS ("%\x7bfullPath\x7d".toList) skill.fullPath.toList
      ("<skill name=\"".toList ++ skill.name.toList
        ++ "\">\n\n%\x7bcontent\x7d\n\n</skill>".toList)
      = "<skill name=\"".toList ++ skill.name.toList
        ++ "\">\n\n%\x7bcontent\x7d\n\n</skill>".toList := by
    apply replaceAllJS_not_contains
    have hp : ("%\x7bfullPath\x7d".toList : List Char)
        = '%' :: "\x7bfullPath\x7d".toList := by decide
    rw [hp, containsSub_append_head_notMem '%' _ _ _ hA12]
    decide
  have R3 : replaceAllJS ("%\x7bcontent\x7d".toList) skill.content.toList
      ("<skill name=\"".toList ++ skill.name.toList
        ++ "\">\n\n%\x7bcontent\x7d\n\n</skill>".toList)
      = "<skill name=\"".toList ++ skill.name.toList ++ "\">\n\n".toList
        ++ skill.content.toList ++ "\n\n</skill>".toList :=
    (replaceAllJS_eq_replaceAll _ _ _ hcd).trans r3
  have R4 : replaceAllJS ("%\x7bname\x7d".toList) skill.name.toList RESOURCES_PROMPT.toList
      = "<skill_resources>\nIMPORTANT: The skill ".toList ++ skill.name.toList
        ++ " may reference certain resource files. Use their full paths:\n\n%\x7bpaths\x7d\n</skill_resources>".toList :=
    (replaceAllJS_eq_replaceAll _ _ _ hnd).trans r4
  have R5 : replaceAllJS ("%\x7bpaths\x7d".toList)
      (jsJoin ['\n'] (resourcePaths.map String.toList))
      ("<skill_resources>\nIMPORTANT: The skill ".toList ++ skill.name.toList
        ++ " may reference certain resource files. Use their full paths:\n\n%\x7bpaths\x7d\n</skill_resources>".toList)
      = "<skill_resources>\nIMPORTANT: The skill ".toList ++ skill.name.toList
        ++ " may reference certain resource files. Use their full paths:\n\n".toList
        ++ jsJoin ['\n'] (resourcePaths.map String.toList)
        ++ "\n</skill_resources>".toList :=
    (replaceAllJS_eq_replaceAll _ _ _ hjd).trans r5
  simp only [renderSkill, R1, R2, R3, R4, R5]
  cases resourcePaths with
  | nil => simp
  | cons p ps =>
    rw [if_pos (by simp : ((p :: ps : List String)).length > 0),
      if_neg (by simp : ¬((p :: ps : List String) = []))]
    have e3 : ("\n\n<skill_resources>\nIMPORTANT: The skill ".toList : List Char)
        = "\n\n".toList ++ "<skill_resources>\nIMPORTANT: The skill ".toList := by
      decide
    rw [e3]
    simp [List.append_assoc]

set_option maxRecDepth 8000 in
/-- C5 witness: the demo bundle rendered once with one resource and once
with none. -/
theorem renderSkill_payload_witness :
    renderSkill demoSkill ["/r/skills/demo/notes.txt"]
      = "<skill name=\"demo\">\n\n# Hello\n\n</skill>\n\n<skill_resources>\nIMPORTANT: The skill demo may reference certain resource files. Use their full paths:\n\n/r/skills/demo/notes.txt\n</skill_resources>"
      ∧ renderSkill demoSkill [] = "<skill name=\"demo\">\n\n# Hello\n\n</skill>" := by
  have h1 := renderSkill_payload demoSkill ["/r/skills/demo/notes.txt"]
    (by decide) (by decide) (by decide) (by decide)
  have h2 := renderSkill_payload demoSkill []
    (by decide) (by decide) (by decide) (by decide)
  exact ⟨h1.trans (by decide), h2.trans (by decide)⟩
